import Mathlib

/-!
# Verification of the per-user document store and retrieval engine

Shallow embedding of the document-store core of the repository
(document-store module, and the pure context-assembly part of the
answer-generation module).  Strings are modelled as `List Char`
(JavaScript's UTF-16 `.length` coincides with the character count on the
inputs the claims quantify over; no claim depends on surrogate pairs).
The splitting regexes of the chunker are fixed and are modelled
directly; the query-word regexes built by `new RegExp(word, 'gi')` are
data-dependent, so they are modelled by a classifier over the pattern
text: patterns in a literal-and-wildcard subset get an exact match count,
patterns with unbalanced parentheses raise the constructor's
`SyntaxError`, and any other regex syntax is reported out of model. -/

/-- Strings are modelled as lists of characters. -/
abbrev Str := List Char

/-- The whitespace class used by the source's `\s` regexes and `trim` calls
(ASCII part; no claim exercises non-ASCII whitespace). -/
def isWs (c : Char) : Bool :=
  c = ' ' || c = '\t' || c = '\n' || c = '\r' || c = '\x0b' || c = '\x0c'

/-- Sentence-terminating punctuation from the chunker's split regex. -/
def isPunct (c : Char) : Bool :=
  c = '.' || c = '!' || c = '?'

/-- ASCII lower-casing of one character (JS `toLowerCase` restricted to the
alphabet the claims use). -/
def toLowerChar (c : Char) : Char :=
  if 65 ≤ c.toNat ∧ c.toNat ≤ 90 then Char.ofNat (c.toNat + 32) else c

/-- Lower-casing of a string, character by character. -/
def toLowerStr (s : Str) : Str := s.map toLowerChar

/-- `splitWsGo inDelim acc rest`: worker for splitting on runs of whitespace,
mirroring JS `str.split(/\s+/)` (boundary runs yield empty segments). -/
def splitWsGo (inDelim : Bool) (acc : Str) : Str → List Str
  | [] => [acc.reverse]
  | c :: cs =>
    if isWs c then
      if inDelim then splitWsGo true [] cs
      else acc.reverse :: splitWsGo true [] cs
    else splitWsGo false (c :: acc) cs

/-- JS `str.split(/\s+/)`. -/
def splitWs (s : Str) : List Str := splitWsGo false [] s

/-- JS `str.split(' ')`: every single space character is a delimiter, so
consecutive spaces produce empty segments. -/
def splitSp : Str → List Str
  | [] => [[]]
  | c :: cs =>
    if c = ' ' then [] :: splitSp cs
    else
      match splitSp cs with
      | t :: rest => (c :: t) :: rest
      | [] => [[c]]

/-- JS `arr.join(' ')`. -/
def joinSp : List Str → Str
  | [] => []
  | [x] => x
  | x :: xs => x ++ ' ' :: joinSp xs

/-- JS `arr.slice(-k)` for `k ≥ 1`: the last `k` elements (all of them when
`k` exceeds the length). The `k = 0` case is handled at the call site,
because JS `slice(-0)` is `slice(0)`, the whole array. -/
def lastK (k : Nat) (l : List Str) : List Str := l.drop (l.length - k)

/-- Leading-whitespace strip. -/
def ltrim (s : Str) : Str := s.dropWhile isWs

/-- Trailing-whitespace strip. -/
def rtrim (s : Str) : Str := (s.reverse.dropWhile isWs).reverse

/-- JS `str.trim()`. -/
def trim (s : Str) : Str := ltrim (rtrim s)

/-- Is the first character whitespace? -/
def headIsWs : Str → Bool
  | [] => false
  | c :: _ => isWs c

/-- Worker for the sentence split `text.split(/(?<=[.!?])\s+/)`: a break
occurs at a maximal whitespace run whose preceding character is `.`, `!`
or `?`.  When `skipping` is set the scanner is consuming such a run. -/
def sentGo (skipping : Bool) (acc : Str) : Str → List Str
  | [] => if skipping then [[]] else [acc.reverse]
  | c :: cs =>
    if skipping then
      if isWs c then sentGo true [] cs
      else sentGo false [c] cs
    else if isPunct c ∧ headIsWs cs then
      (c :: acc).reverse :: sentGo true [] cs
    else sentGo false (c :: acc) cs

/-- JS `text.split(/(?<=[.!?])\s+/)`. -/
def sentSplit (s : Str) : List Str := sentGo false [] s

/-- Worker for counting non-overlapping pattern occurrences: `skip` counts
characters still covered by the previous match. -/
def countOccsGo (pat : Str) : Str → Nat → Nat
  | [], _ => 0
  | c :: cs, 0 =>
    if pat.isPrefixOf (c :: cs) then countOccsGo pat cs (pat.length - 1) + 1
    else countOccsGo pat cs 0
  | _ :: cs, k + 1 => countOccsGo pat cs k

/-- Literal (spec-side) occurrence count: the leftmost non-overlapping
scan for the pattern taken as a plain string, counting `txt.length + 1`
empty matches for an empty pattern.  This is what the spec's words
describe; the program itself interprets the pattern as a regex (see
`parsePat` and `atomsCount` below). -/
def countOccs (pat txt : Str) : Nat :=
  if pat = [] then txt.length + 1 else countOccsGo pat txt 0

/-- JS `txt.includes(pat)`. -/
def isSub (pat : Str) : Str → Bool
  | [] => pat.isPrefixOf []
  | c :: cs => pat.isPrefixOf (c :: cs) || isSub pat cs

/-- The overlap slice `words.slice(-Math.floor(overlap / 10))` of the
single-space tokens of a buffer (JS `slice(-0)` is the whole array). -/
def owOf (k : Nat) (buf : Str) : List Str :=
  let ws := splitSp buf
  if k = 0 then ws else lastK k ws

/-- The chunking loop of `chunkText`, returning the closed (pre-`trim`)
buffers in order together with the final buffer. -/
def chunkLoop (chunkSize k : Nat) : Str → List Str → List Str × Str
  | cur, [] => ([], cur)
  | cur, s :: rest =>
    if chunkSize < (cur ++ s).length ∧ cur ≠ [] then
      let r := chunkLoop chunkSize k (joinSp (owOf k cur) ++ ' ' :: s) rest
      (cur :: r.1, r.2)
    else
      chunkLoop chunkSize k (if cur = [] then s else cur ++ ' ' :: s) rest

/-- `DocumentStore.chunkText(text, chunkSize = 3000, overlap = 500)`. -/
def chunkText (text : Str) (chunkSize : Nat := 3000) (overlap : Nat := 500) :
    List Str :=
  let r := chunkLoop chunkSize (overlap / 10) [] (sentSplit text)
  let chunks := r.1.map trim ++ (if trim r.2 = [] then [] else [trim r.2])
  if chunks = [] then [text] else chunks

/-- The closed (pre-`trim`) buffers produced while chunking `text`. -/
def closedBuffers (text : Str) (chunkSize overlap : Nat) : List Str :=
  (chunkLoop chunkSize (overlap / 10) [] (sentSplit text)).1

/-- A stored document.  The source also records `uploadedAt`, a wall-clock
timestamp; it is omitted here because it is non-deterministic I/O and no
claim mentions it. -/
structure Doc where
  fileName : Str
  content : Str
  chunks : List Str
deriving DecidableEq

/-- The store's `Map` from chat id to a user's document collection. -/
def Store := Nat → Option (List Doc)

/-- The initial state of the module-level singleton store. -/
def emptyStore : Store := fun _ => none

/-- `this.documents.set(chatId, docs)`. -/
def setStore (s : Store) (chatId : Nat) (docs : List Doc) : Store :=
  fun k => if k = chatId then some docs else s k

/-- `this.documents.delete(chatId)`. -/
def delStore (s : Store) (chatId : Nat) : Store :=
  fun k => if k = chatId then none else s k

/-- JS `Array.prototype.findIndex`, returning `none` instead of `-1`. -/
def findIdxD (p : α → Bool) : List α → Option Nat
  | [] => none
  | a :: l => if p a then some 0 else (findIdxD p l).map (· + 1)

/-- The record returned by `addDocument`. -/
structure AddResult where
  success : Bool
  fileName : Str
  chunksCount : Nat
  totalDocuments : Nat
deriving DecidableEq

/-- `DocumentStore.addDocument`. -/
def addDocument (s : Store) (chatId : Nat) (fileName content : Str) :
    Store × AddResult :=
  let chunks := chunkText content
  let doc : Doc := ⟨fileName, content, chunks⟩
  let userDocs := (s chatId).getD []
  let newDocs :=
    match findIdxD (fun d => d.fileName == fileName) userDocs with
    | some i => userDocs.set i doc
    | none => userDocs ++ [doc]
  (setStore s chatId newDocs, ⟨true, fileName, chunks.length, newDocs.length⟩)

/-- `DocumentStore.getDocuments`. -/
def getDocuments (s : Store) (chatId : Nat) : List Doc := (s chatId).getD []

/-- `DocumentStore.getDocumentCount`. -/
def getDocumentCount (s : Store) (chatId : Nat) : Nat :=
  (getDocuments s chatId).length

/-- `DocumentStore.getDocumentNames`. -/
def getDocumentNames (s : Store) (chatId : Nat) : List Str :=
  (getDocuments s chatId).map Doc.fileName

/-- `DocumentStore.deleteDocument`. -/
def deleteDocument (s : Store) (chatId : Nat) (fileName : Str) : Store × Bool :=
  match s chatId with
  | none => (s, false)
  | some userDocs =>
    match findIdxD (fun d => d.fileName == fileName) userDocs with
    | some i => (setStore s chatId (userDocs.eraseIdx i), true)
    | none => (s, false)

/-- `DocumentStore.clearDocuments`. -/
def clearDocuments (s : Store) (chatId : Nat) : Store × Bool :=
  (delStore s chatId, true)

/-- `DocumentStore.getAllContent`. -/
def getAllContent (s : Store) (chatId : Nat) : List (Str × Str) :=
  (getDocuments s chatId).map fun d => (d.fileName, d.content)

/-- A search result `{ fileName, chunk, score }`. -/
structure SearchResult where
  fileName : Str
  chunk : Str
  score : Nat
deriving DecidableEq

/-- The query tokenisation of `searchDocuments`:
`query.toLowerCase().split(/\s+/).filter(w => w.length > 2)`. -/
def queryWordsOf (query : Str) : List Str :=
  (splitWs (toLowerStr query)).filter fun w => 2 < w.length

/-- The JavaScript regex syntax characters `^ $ \ . * + ? ( ) [ ] vertical
bar` and braces: a word containing none of these is interpreted by
`new RegExp(word, 'gi')` as the literal word. -/
def regexMeta (c : Char) : Bool :=
  c = '^' || c = '$' || c = '\\' || c = '.' || c = '*' || c = '+' ||
    c = '?' || c = '(' || c = ')' || c = '[' || c = ']' || c = '\x7b' ||
    c = '\x7d' || c = '|'

/-- One element of the modeled regex subset: a literal character or the
`.` wildcard. -/
inductive RAtom where
  | lit (c : Char)
  | any
deriving DecidableEq

/-- Classification of the pattern `new RegExp(word, 'gi')` is built from:
a sequence of modeled atoms (only literal characters and `.`), a pattern
the constructor rejects with a `SyntaxError` (unbalanced parentheses), or
a pattern using further regex syntax, about which this embedding makes no
statement. -/
inductive PatParse where
  | atoms (l : List RAtom)
  | invalid
  | unmodeled
deriving DecidableEq

/-- Whether a classified pattern lies in the modeled atom subset. -/
def PatParse.isAtoms : PatParse → Bool
  | atoms _ => true
  | _ => false

/-- Pattern scan for the classification: tracks the parenthesis depth
(an unbalanced `(` or `)` is a `SyntaxError` in the constructor) and
whether syntax outside the literal-and-wildcard subset occurred. -/
def parsePatGo : Str → Nat → Bool → List RAtom → PatParse
  | [], depth, sawU, acc =>
    if depth ≠ 0 then PatParse.invalid
    else if sawU then PatParse.unmodeled
    else PatParse.atoms acc.reverse
  | c :: cs, depth, sawU, acc =>
    if c = '(' then parsePatGo cs (depth + 1) true acc
    else if c = ')' then
      if depth = 0 then PatParse.invalid
      else parsePatGo cs (depth - 1) true acc
    else if c = '.' then parsePatGo cs depth sawU (RAtom.any :: acc)
    else if regexMeta c then parsePatGo cs depth true acc
    else parsePatGo cs depth sawU (RAtom.lit c :: acc)

/-- Classify the pattern a query word denotes. -/
def parsePat (pat : Str) : PatParse := parsePatGo pat 0 false []

/-- JavaScript line terminators, which the `.` wildcard does not match. -/
def lineTerm (c : Char) : Bool :=
  c = '\n' || c = '\r' || c.toNat = 0x2028 || c.toNat = 0x2029

/-- Whether one modeled atom matches one character, under the `i` flag
(ASCII case folding, like `toLowerChar`). -/
def atomMatch : RAtom → Char → Bool
  | RAtom.lit c, d => toLowerChar c == toLowerChar d
  | RAtom.any, d => !lineTerm d

/-- Whether the atom sequence matches at the head of the text. -/
def atomsHere : List RAtom → Str → Bool
  | [], _ => true
  | _ :: _, [] => false
  | a :: l, c :: cs => atomMatch a c && atomsHere l cs

/-- Worker for the match count: non-overlapping leftmost scan; each atom
consumes exactly one character, so a match has the pattern's length. -/
def atomsCountGo (l : List RAtom) : Str → Nat → Nat
  | [], _ => 0
  | c :: cs, 0 =>
    if atomsHere l (c :: cs) then atomsCountGo l cs (l.length - 1) + 1
    else atomsCountGo l cs 0
  | _ :: cs, k + 1 => atomsCountGo l cs k

/-- Number of matches of `text.match(new RegExp(pat, 'gi'))` for a pattern
in the modeled subset; JS counts an empty pattern once per position. -/
def atomsCount (l : List RAtom) (txt : Str) : Nat :=
  if l = [] then txt.length + 1 else atomsCountGo l txt 0

/-- Outcome of `calculateRelevance`: a score, a `SyntaxError` thrown by
the `RegExp` constructor, or a query word outside the modeled regex
subset. -/
inductive ScoreOut where
  | score (n : Nat)
  | thrown
  | unmodeled
deriving DecidableEq

/-- The word loop of `calculateRelevance`: each query word is compiled
with `new RegExp(word, 'gi')` — the word is interpreted as a regex
pattern, not as a literal string — and its match count added to the
accumulator; a `SyntaxError` aborts the loop. -/
def wordScores (text : Str) : List Str → Nat → ScoreOut
  | [], acc => ScoreOut.score acc
  | w :: ws, acc =>
    match parsePat w with
    | PatParse.atoms l => wordScores text ws (acc + atomsCount l text)
    | PatParse.invalid => ScoreOut.thrown
    | PatParse.unmodeled => ScoreOut.unmodeled

/-- `DocumentStore.calculateRelevance`: the word loop above, then the
phrase bonus, which uses `text.includes(phrase)` — case-sensitive on the
text it is given (the caller passes the lower-cased chunk) and never
throwing. -/
def calculateRelevance (text : Str) (queryWords : List Str) : ScoreOut :=
  match wordScores text queryWords 0 with
  | ScoreOut.score s =>
    ScoreOut.score
      (if isSub (joinSp queryWords) text then s + queryWords.length * 2
        else s)
  | e => e

/-- The result a `(fileName, chunk)` pair contributes when its score is
positive: the body of the chunk loop of `searchDocuments` on a run where
scoring returns. -/
def hitOf (qws : List Str) (p : Str × Str) : Option SearchResult :=
  match calculateRelevance (toLowerStr p.2) qws with
  | ScoreOut.score sc => if 0 < sc then some ⟨p.1, p.2, sc⟩ else none
  | _ => none

/-- The results list of `searchDocuments` before sorting, in the runs
where no query word aborts the scoring: documents in collection order,
chunks in document order, keeping scores `> 0` only. -/
def searchHits (s : Store) (chatId : Nat) (query : Str) : List SearchResult :=
  ((s chatId).getD []).flatMap fun d =>
    d.chunks.filterMap fun ch => hitOf (queryWordsOf query) (d.fileName, ch)

/-- The sort comparator `(a, b) => b.score - a.score` as an ordering
relation. -/
def resCmp (a b : SearchResult) : Prop := b.score ≤ a.score

instance : DecidableRel resCmp := fun _ _ => Nat.decLe _ _

instance : IsTotal SearchResult resCmp := ⟨fun a b => le_total b.score a.score⟩

instance : IsTrans SearchResult resCmp := ⟨fun _ _ _ h1 h2 => le_trans h2 h1⟩

/-- Outcome of `searchDocuments`: a result list, or the propagated
`SyntaxError` from scoring, or an out-of-model query word. -/
inductive SearchOut where
  | results (l : List SearchResult)
  | thrown
  | unmodeled
deriving DecidableEq

/-- The chunk loop of `searchDocuments` over `(fileName, chunk)` pairs in
encounter order; an exception from `calculateRelevance` propagates out of
the loop. -/
def scoreChunks (qws : List Str) : List (Str × Str) → SearchOut
  | [] => SearchOut.results []
  | p :: rest =>
    match calculateRelevance (toLowerStr p.2) qws with
    | ScoreOut.score sc =>
      match scoreChunks qws rest with
      | SearchOut.results l =>
        SearchOut.results (if 0 < sc then ⟨p.1, p.2, sc⟩ :: l else l)
      | e => e
    | ScoreOut.thrown => SearchOut.thrown
    | ScoreOut.unmodeled => SearchOut.unmodeled

/-- `DocumentStore.searchDocuments`.  JS `Array.prototype.sort` is stable,
so the success path is modelled by the stable `insertionSort`; a
`SyntaxError` raised while scoring escapes the method instead of
returning a list. -/
def searchDocuments (s : Store) (chatId : Nat) (query : Str) : SearchOut :=
  if (s chatId).getD [] = [] then SearchOut.results []
  else
    match scoreChunks (queryWordsOf query)
        (((s chatId).getD []).flatMap fun d =>
          d.chunks.map fun ch => (d.fileName, ch)) with
    | SearchOut.results l =>
      SearchOut.results ((List.insertionSort resCmp l).take 10)
    | e => e

/-- `maxTotalContext` from `generateAnswer`. -/
def maxTotalContext : Nat := 100000

/-- The truncation marker appended to over-budget documents. -/
def truncMarker : Str := ("\n\n[... document truncated for length ...]").toList

/-- The (possibly truncated) body contributed by one document. -/
def docBody (maxPerDoc : Nat) (content : Str) : Str :=
  if maxPerDoc < content.length then content.take maxPerDoc ++ truncMarker
  else content

/-- The delimited header naming one source document. -/
def docHeader (fileName : Str) : Str :=
  '\n' :: '\n' :: List.replicate 60 '=' ++
    '\n' :: ("📄 DOCUMENT: ").toList ++ fileName ++
      '\n' :: List.replicate 60 '=' ++ ['\n']

/-- The pure context-assembly loop of `generateAnswer` (document list as
returned by `getAllContent`; the remote model call is external I/O). -/
def generateAnswerContext (allDocs : List (Str × Str)) : Str × List Str :=
  let maxPerDoc := maxTotalContext / allDocs.length
  allDocs.foldl
    (fun acc d => (acc.1 ++ docHeader d.1 ++ docBody maxPerDoc d.2,
                   acc.2 ++ [d.1]))
    ([], [])

/-- The public operations of the store, for the frame and invariant
claims. -/
inductive Op where
  | add (uid : Nat) (fileName content : Str)
  | del (uid : Nat) (fileName : Str)
  | clear (uid : Nat)
  | docs (uid : Nat)
  | count (uid : Nat)
  | names (uid : Nat)
  | search (uid : Nat) (query : Str)
  | allContent (uid : Nat)

/-- The user identifier an operation is invoked with. -/
def Op.targetUid : Op → Nat
  | .add uid _ _ => uid
  | .del uid _ => uid
  | .clear uid => uid
  | .docs uid => uid
  | .count uid => uid
  | .names uid => uid
  | .search uid _ => uid
  | .allContent uid => uid

/-- Whether the operation is one of the read operations. -/
def Op.isRead : Op → Bool
  | .add _ _ _ => false
  | .del _ _ => false
  | .clear _ => false
  | _ => true

/-- The store state after an operation.  The read operations never assign
to `this.documents` in the source, so they leave the store as is. -/
def applyOp : Op → Store → Store
  | .add uid fn c, s => (addDocument s uid fn c).1
  | .del uid fn, s => (deleteDocument s uid fn).1
  | .clear uid, s => (clearDocuments s uid).1
  | .docs _, s => s
  | .count _, s => s
  | .names _, s => s
  | .search _ _, s => s
  | .allContent _, s => s

/-- Store states reachable from the initial empty store by any sequence of
public operations. -/
inductive Reachable : Store → Prop where
  | empty : Reachable emptyStore
  | step (op : Op) {s : Store} : Reachable s → Reachable (applyOp op s)

/-- The score a chunk receives according to the specification's wording:
the sum over query words of the case-insensitive occurrence count of the
word in the chunk, plus a phrase bonus of twice the word count when the
lower-cased chunk contains the words joined by single spaces. -/
def specScore (chunk : Str) (queryWords : List Str) : Nat :=
  (queryWords.map fun w => countOccs (toLowerStr w) (toLowerStr chunk)).sum +
    (if isSub (joinSp queryWords) (toLowerStr chunk) then
      queryWords.length * 2
    else 0)

/-- Example file name for concrete store states. -/
def exPdfName : Str := ("a.pdf").toList

/-- Example document content. -/
def exContentX : Str := ("x").toList

/-- Example document content. -/
def exContentY : Str := ("y").toList

/-- Example query: two scoring words. -/
def exQuery : Str := ("aaa bbb").toList

/-- Example chunk scoring 5. -/
def exChunk1 : Str := ("aaa aaa aaa aaa aaa").toList

/-- Example chunk scoring 5, distinct from `exChunk1`. -/
def exChunk2 : Str := ("aaa aaa aaa aaa aaa x").toList

/-- Example chunk scoring 2. -/
def exChunk3 : Str := ("aaa aaa").toList

/-- Example chunk scoring 0. -/
def exChunk4 : Str := ("ccc").toList

/-- Example chunk scoring 8. -/
def exChunk5 : Str := ("aaa aaa aaa aaa aaa aaa aaa aaa").toList

/-- A store whose single user holds one document with chunks scoring
`[5, 5, 2, 0, 8]` against `exQuery`, the spec's search-ordering example. -/
def exSearchStore : Store := fun u =>
  if u = 0 then
    some [⟨("doc1").toList, [],
          [exChunk1, exChunk2, exChunk3, exChunk4, exChunk5]⟩]
  else none

/-- Example chunk for the phrase-bonus example: contains the phrase
"annual report" once, plus one extra "annual" and one extra "report". -/
def exRelChunk : Str := ("Annual Report x annual y report").toList

/-- Example file name for the context-budget example. -/
def exName1 : Str := ("one.pdf").toList

/-- Example file name for the context-budget example. -/
def exName2 : Str := ("two.pdf").toList

/-- Example file name for the context-budget example. -/
def exName3 : Str := ("three.pdf").toList

/-- A 50000-character document body for the context-budget example. -/
def exBigContent : Str := List.replicate 50000 'a'

/-- The three-document corpus of the spec's context-budget example. -/
def exDocs3 : List (Str × Str) :=
  [(exName1, exBigContent), (exName2, exBigContent), (exName3, exBigContent)]

/-- The first buffer a chunking run will close (or its final buffer when
nothing closes). -/
def firstBuf (r : List Str × Str) : Str := r.1.headD r.2

/-- A string ending in sentence punctuation. -/
def endsPunct (s : Str) : Prop := ∃ c, s.getLast? = some c ∧ isPunct c = true

/-- Every segment of a sentence list except possibly the last is non-empty
and ends in sentence punctuation (true of `sentSplit` output). -/
def sentsOK (l : List Str) : Prop :=
  ∀ i b, l[i]? = some b → i + 1 < l.length → endsPunct b

/-- The chunker input of the C3 counterexample: a double space inside the
first sentence makes the overlap tokens start with an empty token. -/
def exOverlapText : Str := ("a  b. cc. dddddddddd.").toList

/-- The chunker input of the C5 counterexample: leading whitespace is
trimmed away from the only chunk. -/
def exTrimText : Str := (" a").toList

/-- The chunk of the C2 counterexample. -/
def exRegexChunk : Str := ("apple").toList

/-- The query word of the C2 counterexample: as a regex, `app.` matches
"appl" inside "apple" via the `.` wildcard; as a literal string it does
not occur. -/
def exRegexWord : Str := ("app.").toList

/-- The query of the C1 counterexample: `(((` is a regex `SyntaxError`,
so `new RegExp(word, 'gi')` throws inside the scoring loop. -/
def exBadQuery : Str := ("(((").toList

/-- Claim C4: the chunker never returns an empty sequence, and on the empty
string it returns the single-element sequence containing the empty
string. -/
theorem chunkText_never_empty :
    (∀ chunkSize overlap : Nat, chunkText [] chunkSize overlap = [[]]) ∧
    (∀ (text : Str) (chunkSize overlap : Nat),
      0 < (chunkText text chunkSize overlap).length) := by
  constructor
  · intro cs ov
    simp [chunkText, chunkLoop, sentSplit, sentGo, trim, ltrim, rtrim]
  · intro text cs ov
    unfold chunkText
    dsimp only
    split <;> split <;> simp_all [List.length_pos]

theorem findIdxD_some_lt {α : Type} {p : α → Bool} :
    ∀ {l : List α} {i : Nat}, findIdxD p l = some i → i < l.length := by
  intro l
  induction l with
  | nil => intro i h; simp [findIdxD] at h
  | cons a t ih =>
    intro i h
    by_cases hp : p a
    · simp [findIdxD, hp] at h
      simp only [List.length_cons]
      omega
    · simp [findIdxD, hp] at h
      obtain ⟨j, hj, rfl⟩ := h
      have := ih hj
      simp only [List.length_cons]
      omega

theorem findIdxD_some_get {α : Type} {p : α → Bool} :
    ∀ {l : List α} {i : Nat}, findIdxD p l = some i →
      ∃ a, l[i]? = some a ∧ p a = true := by
  intro l
  induction l with
  | nil => intro i h; simp [findIdxD] at h
  | cons a t ih =>
    intro i h
    by_cases hp : p a
    · simp [findIdxD, hp] at h
      exact ⟨a, by simp [← h], hp⟩
    · simp [findIdxD, hp] at h
      obtain ⟨j, hj, rfl⟩ := h
      obtain ⟨b, hb, hpb⟩ := ih hj
      exact ⟨b, by simpa using hb, hpb⟩

theorem findIdxD_none {α : Type} {p : α → Bool} :
    ∀ {l : List α}, findIdxD p l = none → ∀ a ∈ l, p a = false := by
  intro l
  induction l with
  | nil => intro _ a ha; simp at ha
  | cons a t ih =>
    intro h b hb
    by_cases hp : p a
    · simp [findIdxD, hp] at h
    · simp [findIdxD, hp] at h
      rcases List.mem_cons.mp hb with rfl | hb
      · simpa using hp
      · exact ih h b hb

theorem set_getQ_self {α : Type} :
    ∀ {l : List α} {i : Nat} {a : α}, l[i]? = some a → l.set i a = l := by
  intro l
  induction l with
  | nil => intro i a h; simp at h
  | cons b t ih =>
    intro i a h
    cases i with
    | zero => simp at h; simp [h]
    | succ j => simp at h; simp [ih h]

/-- Claim C6: when a document with the same file name already exists for a
user, `addDocument` replaces it in place at its original index, leaving the
document count and all other slots unchanged; in particular adding the same
file name twice starting from a fresh collection leaves exactly one
document holding the second content. -/
theorem addDocument_replace_in_place :
    (∀ (s : Store) (uid : Nat) (fn c : Str) (i : Nat),
      findIdxD (fun d => d.fileName == fn) (getDocuments s uid) = some i →
        getDocumentCount (addDocument s uid fn c).1 uid =
          getDocumentCount s uid ∧
        (getDocuments (addDocument s uid fn c).1 uid)[i]? =
          some ⟨fn, c, chunkText c⟩ ∧
        ∀ j, j ≠ i →
          (getDocuments (addDocument s uid fn c).1 uid)[j]? =
            (getDocuments s uid)[j]?) ∧
    (∀ (uid : Nat) (fn x y : Str),
      getDocumentCount
          (addDocument (addDocument emptyStore uid fn x).1 uid fn y).1 uid =
        1 ∧
      (getDocuments
          (addDocument (addDocument emptyStore uid fn x).1 uid fn y).1
          uid)[0]? =
        some ⟨fn, y, chunkText y⟩) := by
  constructor
  · intro s uid fn c i hfind
    have hget : getDocuments (addDocument s uid fn c).1 uid =
        ((s uid).getD []).set i ⟨fn, c, chunkText c⟩ := by
      simp only [addDocument, getDocuments] at hfind ⊢
      rw [hfind]
      simp [setStore]
    have hlt : i < ((s uid).getD []).length :=
      findIdxD_some_lt (by simpa [getDocuments] using hfind)
    refine ⟨?_, ?_, ?_⟩
    · simp only [getDocumentCount]
      rw [hget]
      simp [getDocuments]
    · rw [hget, List.getElem?_set_self hlt]
    · intro j hj
      rw [hget, List.getElem?_set_ne (fun e => hj e.symm)]
      rfl
  · intro uid fn x y
    constructor
    · simp [addDocument, getDocuments, getDocumentCount, setStore,
        emptyStore, findIdxD]
    · simp [addDocument, getDocuments, setStore, emptyStore, findIdxD]

/-- Witness for C6 at a concrete store: one document `a.pdf` with content
`x`, overwritten by content `y`. -/
theorem addDocument_replace_witness :
    getDocumentCount
        (addDocument (addDocument emptyStore 0 exPdfName exContentX).1 0
          exPdfName exContentY).1 0 =
      getDocumentCount (addDocument emptyStore 0 exPdfName exContentX).1 0 ∧
    (getDocuments
        (addDocument (addDocument emptyStore 0 exPdfName exContentX).1 0
          exPdfName exContentY).1 0)[0]? =
      some ⟨exPdfName, exContentY, chunkText exContentY⟩ ∧
    ∀ j, j ≠ 0 →
      (getDocuments
          (addDocument (addDocument emptyStore 0 exPdfName exContentX).1 0
            exPdfName exContentY).1 0)[j]? =
        (getDocuments (addDocument emptyStore 0 exPdfName exContentX).1
            0)[j]? :=
  addDocument_replace_in_place.1
    (addDocument emptyStore 0 exPdfName exContentX).1 0 exPdfName exContentY
    0 (by decide)

/-- Claim C8: unknown users and unknown file names never fail:
`getDocuments` of an unknown uid is empty, `deleteDocument` returns `true`
iff a document with that file name existed (removing the first match), and
`clearDocuments` always returns `true` and leaves the count at `0`. -/
theorem store_missing_safe :
    ∀ (s : Store) (uid : Nat) (fn : Str),
      (s uid = none → getDocuments s uid = []) ∧
      ((deleteDocument s uid fn).2 = true ↔
        fn ∈ (getDocuments s uid).map Doc.fileName) ∧
      (∀ docs i, s uid = some docs →
        findIdxD (fun d => d.fileName == fn) docs = some i →
          getDocuments (deleteDocument s uid fn).1 uid = docs.eraseIdx i) ∧
      (clearDocuments s uid).2 = true ∧
      getDocumentCount (clearDocuments s uid).1 uid = 0 := by
  intro s uid fn
  refine ⟨?_, ?_, ?_, rfl, ?_⟩
  · intro h
    simp [getDocuments, h]
  · unfold deleteDocument
    cases hs : s uid with
    | none => simp [getDocuments, hs]
    | some docs =>
      cases hf : findIdxD (fun d => d.fileName == fn) docs with
      | none =>
        simp only [hf, getDocuments, hs, Option.getD_some]
        constructor
        · intro h
          simp at h
        · intro h
          exfalso
          rw [List.mem_map] at h
          obtain ⟨d, hd, hdf⟩ := h
          have hfalse := findIdxD_none hf d hd
          rw [hdf] at hfalse
          simp at hfalse
      | some i =>
        simp only [hf, getDocuments, hs, Option.getD_some]
        obtain ⟨d, hd, hp⟩ := findIdxD_some_get hf
        simp only [true_iff]
        exact List.mem_map.mpr
          ⟨d, List.getElem?_mem hd, by simpa using hp⟩
  · intro docs i hs hf
    simp [deleteDocument, hs, hf, getDocuments, setStore]
  · simp [clearDocuments, delStore, getDocumentCount, getDocuments]

/-- Witness for C8 at the empty store. -/
theorem store_missing_witness :
    getDocuments emptyStore 0 = [] ∧
    (deleteDocument emptyStore 0 exPdfName).2 = false ∧
    (clearDocuments emptyStore 0).2 = true ∧
    getDocumentCount (clearDocuments emptyStore 0).1 0 = 0 :=
  ⟨(store_missing_safe emptyStore 0 exPdfName).1 rfl, by decide,
    (store_missing_safe emptyStore 0 exPdfName).2.2.2.1,
    (store_missing_safe emptyStore 0 exPdfName).2.2.2.2⟩

/-- Claim C10: a mutation keyed by one user leaves every other user's
collection unchanged, and the read operations leave the whole store
unchanged. -/
theorem store_frame :
    ∀ (op : Op) (s : Store) (v : Nat),
      (op.targetUid ≠ v → applyOp op s v = s v) ∧
      (op.isRead = true → applyOp op s = s) := by
  intro op s v
  cases op with
  | add uid fn c =>
    refine ⟨fun h => ?_, fun h => by simp [Op.isRead] at h⟩
    have hv : ¬v = uid := fun e => h e.symm
    simp [applyOp, addDocument, setStore, hv]
  | del uid fn =>
    refine ⟨fun h => ?_, fun h => by simp [Op.isRead] at h⟩
    have hv : ¬v = uid := fun e => h e.symm
    cases hs : s uid with
    | none => simp [applyOp, deleteDocument, hs]
    | some docs =>
      cases hf : findIdxD (fun d => d.fileName == fn) docs with
      | none => simp [applyOp, deleteDocument, hs, hf]
      | some i => simp [applyOp, deleteDocument, hs, hf, setStore, hv]
  | clear uid =>
    refine ⟨fun h => ?_, fun h => by simp [Op.isRead] at h⟩
    have hv : ¬v = uid := fun e => h e.symm
    simp [applyOp, clearDocuments, delStore, hv]
  | docs uid => exact ⟨fun _ => rfl, fun _ => rfl⟩
  | count uid => exact ⟨fun _ => rfl, fun _ => rfl⟩
  | names uid => exact ⟨fun _ => rfl, fun _ => rfl⟩
  | search uid q => exact ⟨fun _ => rfl, fun _ => rfl⟩
  | allContent uid => exact ⟨fun _ => rfl, fun _ => rfl⟩

/-- Witness for C10: an `addDocument` for user `0` does not touch user
`1`, and a read operation leaves the store unchanged. -/
theorem store_frame_witness :
    applyOp (Op.add 0 exPdfName exContentX) emptyStore 1 = emptyStore 1 ∧
    applyOp (Op.docs 5) emptyStore = emptyStore :=
  ⟨(store_frame (Op.add 0 exPdfName exContentX) emptyStore 1).1 (by decide),
    (store_frame (Op.docs 5) emptyStore 0).2 rfl⟩

/-- Claim C9: every store state reachable from the initial empty store by
the public operations keeps file names unique within each user's
collection. -/
theorem fileNames_unique :
    ∀ (s : Store), Reachable s → ∀ uid, (getDocumentNames s uid).Nodup := by
  intro s h
  induction h with
  | empty =>
    intro uid
    simp [getDocumentNames, getDocuments, emptyStore]
  | @step op s' hr ih =>
    intro u
    cases op with
    | add uid fn c =>
      by_cases hu : u = uid
      · subst hu
        simp only [getDocumentNames] at ih ⊢
        have hdocs : getDocuments (applyOp (Op.add u fn c) s') u =
            (match findIdxD (fun d => d.fileName == fn) ((s' u).getD []) with
              | some i => ((s' u).getD []).set i ⟨fn, c, chunkText c⟩
              | none => (s' u).getD [] ++ [⟨fn, c, chunkText c⟩]) := by
          simp [applyOp, addDocument, getDocuments, setStore]
        cases hf : findIdxD (fun d => d.fileName == fn) ((s' u).getD []) with
        | some i =>
          rw [hdocs, hf]
          obtain ⟨d, hd, hp⟩ := findIdxD_some_get hf
          have hfn : d.fileName = fn := by simpa using hp
          have hmap : (((s' u).getD []).map Doc.fileName)[i]? = some fn := by
            rw [List.getElem?_map, hd]
            simp [hfn]
          rw [List.map_set]
          have hfld : Doc.fileName ⟨fn, c, chunkText c⟩ = fn := rfl
          rw [hfld, set_getQ_self hmap]
          simpa [getDocuments] using ih u
        | none =>
          rw [hdocs, hf]
          rw [List.map_append]
          rw [List.nodup_append]
          refine ⟨by simpa [getDocuments] using ih u, by simp, ?_⟩
          intro x hx hx'
          simp only [List.map_cons, List.map_nil, List.mem_singleton] at hx'
          subst hx'
          rw [List.mem_map] at hx
          obtain ⟨d, hd, hdf⟩ := hx
          have hfalse := findIdxD_none hf d hd
          rw [hdf] at hfalse
          simp at hfalse
      · have : getDocumentNames (applyOp (Op.add uid fn c) s') u =
            getDocumentNames s' u := by
          simp [applyOp, addDocument, getDocumentNames, getDocuments,
            setStore, hu]
        rw [this]
        exact ih u
    | del uid fn =>
      cases hs : s' uid with
      | none =>
        have : applyOp (Op.del uid fn) s' = s' := by
          simp [applyOp, deleteDocument, hs]
        rw [this]
        exact ih u
      | some docs =>
        cases hf : findIdxD (fun d => d.fileName == fn) docs with
        | none =>
          have : applyOp (Op.del uid fn) s' = s' := by
            simp [applyOp, deleteDocument, hs, hf]
          rw [this]
          exact ih u
        | some i =>
          by_cases hu : u = uid
          · subst hu
            have hdocs : getDocuments (applyOp (Op.del u fn) s') u =
                docs.eraseIdx i := by
              simp [applyOp, deleteDocument, hs, hf, getDocuments, setStore]
            simp only [getDocumentNames, hdocs]
            have hsub : List.Sublist ((docs.eraseIdx i).map Doc.fileName)
                (docs.map Doc.fileName) :=
              (docs.eraseIdx_sublist i).map Doc.fileName
            refine List.Nodup.sublist hsub ?_
            have := ih u
            simpa [getDocumentNames, getDocuments, hs] using this
          · have : getDocumentNames (applyOp (Op.del uid fn) s') u =
                getDocumentNames s' u := by
              simp [applyOp, deleteDocument, hs, hf, getDocumentNames,
                getDocuments, setStore, hu]
            rw [this]
            exact ih u
    | clear uid =>
      by_cases hu : u = uid
      · subst hu
        simp [applyOp, clearDocuments, delStore, getDocumentNames,
          getDocuments]
      · have : getDocumentNames (applyOp (Op.clear uid) s') u =
            getDocumentNames s' u := by
          simp [applyOp, clearDocuments, delStore, getDocumentNames,
            getDocuments, hu]
        rw [this]
        exact ih u
    | docs uid => exact ih u
    | count uid => exact ih u
    | names uid => exact ih u
    | search uid q => exact ih u
    | allContent uid => exact ih u

/-- Witness for C9: the store after two adds and a delete is reachable and
keeps names unique. -/
theorem fileNames_unique_witness :
    (getDocumentNames
        (applyOp (Op.del 0 exPdfName)
          (applyOp (Op.add 0 exContentY exContentX)
            (applyOp (Op.add 0 exPdfName exContentX) emptyStore))) 0).Nodup :=
  fileNames_unique _
    (Reachable.step _ (Reachable.step _ (Reachable.step _ Reachable.empty))) 0

theorem toLowerChar_idem (c : Char) :
    toLowerChar (toLowerChar c) = toLowerChar c := by
  unfold toLowerChar
  by_cases h : 65 ≤ c.toNat ∧ c.toNat ≤ 90
  · rw [if_pos h]
    obtain ⟨h1, h2⟩ := h
    set n := c.toNat with hn
    interval_cases n <;> decide
  · rw [if_neg h, if_neg h]

theorem toLowerStr_idem (s : Str) : toLowerStr (toLowerStr s) = toLowerStr s := by
  unfold toLowerStr
  rw [List.map_map]
  exact List.map_congr_left fun c _ => toLowerChar_idem c

theorem parsePatGo_lit :
    ∀ (w : Str) (acc : List RAtom), (∀ c ∈ w, regexMeta c = false) →
      parsePatGo w 0 false acc =
        PatParse.atoms (acc.reverse ++ w.map RAtom.lit) := by
  intro w
  induction w with
  | nil => intro acc _; simp [parsePatGo]
  | cons c cs ih =>
    intro acc h
    have hc : regexMeta c = false := h c (List.mem_cons_self c cs)
    have hcs : ∀ d ∈ cs, regexMeta d = false :=
      fun d hd => h d (List.mem_cons_of_mem c hd)
    have h1 : ¬c = '(' := fun he => by rw [he] at hc; exact absurd hc (by decide)
    have h2 : ¬c = ')' := fun he => by rw [he] at hc; exact absurd hc (by decide)
    have h3 : ¬c = '.' := fun he => by rw [he] at hc; exact absurd hc (by decide)
    rw [parsePatGo, if_neg h1, if_neg h2, if_neg h3, if_neg (by simp [hc]),
      ih (RAtom.lit c :: acc) hcs]
    simp

theorem parsePat_lit (w : Str) (h : ∀ c ∈ w, regexMeta c = false) :
    parsePat w = PatParse.atoms (w.map RAtom.lit) := by
  rw [parsePat, parsePatGo_lit w [] h]
  rfl

theorem atomsHere_lit :
    ∀ (w txt : Str),
      atomsHere (w.map RAtom.lit) txt =
        (toLowerStr w).isPrefixOf (toLowerStr txt) := by
  intro w
  induction w with
  | nil =>
    intro txt
    cases txt <;> rfl
  | cons c cs ih =>
    intro txt
    cases txt with
    | nil => rfl
    | cons d ds =>
      have h1 : atomsHere ((c :: cs).map RAtom.lit) (d :: ds) =
          (atomMatch (RAtom.lit c) d && atomsHere (cs.map RAtom.lit) ds) := rfl
      have h2 : (toLowerStr (c :: cs)).isPrefixOf (toLowerStr (d :: ds)) =
          ((toLowerChar c == toLowerChar d) &&
            (toLowerStr cs).isPrefixOf (toLowerStr ds)) := rfl
      rw [h1, h2, ih ds]
      rfl

theorem atomsCountGo_lit (w : Str) :
    ∀ (txt : Str) (k : Nat),
      atomsCountGo (w.map RAtom.lit) txt k =
        countOccsGo (toLowerStr w) (toLowerStr txt) k := by
  intro txt
  induction txt with
  | nil => intro k; rfl
  | cons c cs ih =>
    intro k
    cases k with
    | zero =>
      show (if atomsHere (w.map RAtom.lit) (c :: cs) then
          atomsCountGo (w.map RAtom.lit) cs ((w.map RAtom.lit).length - 1) + 1
        else atomsCountGo (w.map RAtom.lit) cs 0) = _
      rw [atomsHere_lit w (c :: cs), ih, ih, List.length_map]
      show _ = (if (toLowerStr w).isPrefixOf (toLowerChar c :: toLowerStr cs)
          then countOccsGo (toLowerStr w) (toLowerStr cs)
            ((toLowerStr w).length - 1) + 1
        else countOccsGo (toLowerStr w) (toLowerStr cs) 0)
      rw [toLowerStr, List.length_map]
      rfl
    | succ k => exact ih k

theorem atomsCount_lit (w txt : Str) :
    atomsCount (w.map RAtom.lit) txt = countOccs (toLowerStr w) (toLowerStr txt) := by
  rw [atomsCount, countOccs]
  by_cases hw : w = []
  · subst hw
    simp [toLowerStr]
  · rw [if_neg (by simp [hw]), if_neg (by simp [toLowerStr, hw]),
      atomsCountGo_lit]

theorem wordScores_lit (text : Str) :
    ∀ (ws : List Str) (acc : Nat), (∀ w ∈ ws, ∀ c ∈ w, regexMeta c = false) →
      wordScores text ws acc =
        ScoreOut.score
          (acc + (ws.map fun w => countOccs (toLowerStr w) (toLowerStr text)).sum) := by
  intro ws
  induction ws with
  | nil => intro acc _; simp [wordScores]
  | cons w rest ih =>
    intro acc h
    have hw : ∀ c ∈ w, regexMeta c = false := h w (List.mem_cons_self w rest)
    have hrest : ∀ v ∈ rest, ∀ c ∈ v, regexMeta c = false :=
      fun v hv => h v (List.mem_cons_of_mem w hv)
    have hstep : wordScores text (w :: rest) acc =
        wordScores text rest (acc + atomsCount (w.map RAtom.lit) text) := by
      rw [wordScores, parsePat_lit w hw]
    rw [hstep, ih (acc + atomsCount (w.map RAtom.lit) text) hrest,
      atomsCount_lit]
    simp only [List.map_cons, List.sum_cons]
    rw [Nat.add_assoc]

/-- Claim C2 (amended): for query words free of regex syntax characters —
the words `queryWordsOf` extracts are additionally lower-case and longer
than two characters — the relevance score of a chunk (scored, as in the
search, on the lower-cased chunk) equals the sum over query words of the
case-insensitive occurrence count of the word in the chunk, plus a bonus
of twice the number of query words when the lower-cased chunk contains
the words joined by single spaces.  For words with regex syntax this
fails: the word is interpreted as a pattern (see
`relevance_counterexample`). -/
theorem relevance_spec (chunk : Str) (qws : List Str)
    (hne : qws ≠ []) (hw : ∀ w ∈ qws, 2 < w.length ∧ toLowerStr w = w)
    (hlit : ∀ w ∈ qws, ∀ c ∈ w, regexMeta c = false) :
    calculateRelevance (toLowerStr chunk) qws =
      ScoreOut.score (specScore chunk qws) := by
  rw [calculateRelevance, wordScores_lit (toLowerStr chunk) qws 0 hlit]
  rw [specScore, toLowerStr_idem]
  by_cases hsub : isSub (joinSp qws) (toLowerStr chunk) <;> simp [hsub]

/-- Witness for C2: the spec's phrase-bonus example scores 8. -/
theorem relevance_spec_witness :
    calculateRelevance (toLowerStr exRelChunk)
        [("annual").toList, ("report").toList] = ScoreOut.score 8 := by
  have h := relevance_spec exRelChunk [("annual").toList, ("report").toList]
    (by decide) (by decide) (by decide)
  rw [h]
  decide

/-- Counterexample for C2 as frozen: the query word `app.` is compiled by
`new RegExp(word, 'gi')`, so its `.` is a wildcard and the chunk `apple`
scores 1, while the claimed literal-occurrence formula gives 0. -/
theorem relevance_counterexample :
    calculateRelevance (toLowerStr exRegexChunk) [exRegexWord] =
        ScoreOut.score 1 ∧
      specScore exRegexChunk [exRegexWord] = 0 ∧
      calculateRelevance (toLowerStr exRegexChunk) [exRegexWord] ≠
        ScoreOut.score (specScore exRegexChunk [exRegexWord]) := by
  decide

theorem genCtx_foldl (mpd : Nat) :
    ∀ (docs : List (Str × Str)) (ctx : Str) (srcs : List Str),
      docs.foldl
          (fun acc d => (acc.1 ++ docHeader d.1 ++ docBody mpd d.2,
            acc.2 ++ [d.1]))
          (ctx, srcs) =
        (ctx ++ (docs.map fun d => docHeader d.1 ++ docBody mpd d.2).flatten,
          srcs ++ docs.map Prod.fst) := by
  intro docs
  induction docs with
  | nil => intro ctx srcs; simp
  | cons d t ih =>
    intro ctx srcs
    simp only [List.foldl_cons, List.map_cons, List.flatten_cons]
    rw [ih]
    simp [List.append_assoc]

/-- Claim C7: context assembly uses a per-document budget of
`⌊100000 / documentCount⌋` characters; each over-budget document is
truncated to its first `maxPerDoc` characters plus a truncation marker,
other documents are included whole, all in collection order, and the
returned sources list names every document regardless of truncation. -/
theorem generateAnswer_context_spec (docs : List (Str × Str))
    (hne : docs ≠ []) :
    (generateAnswerContext docs).2 = docs.map Prod.fst ∧
    (generateAnswerContext docs).1 =
      (docs.map fun d =>
        docHeader d.1 ++ docBody (maxTotalContext / docs.length) d.2).flatten ∧
    ∀ d ∈ docs,
      (maxTotalContext / docs.length < d.2.length →
        docBody (maxTotalContext / docs.length) d.2 =
          d.2.take (maxTotalContext / docs.length) ++ truncMarker) ∧
      (¬maxTotalContext / docs.length < d.2.length →
        docBody (maxTotalContext / docs.length) d.2 = d.2) := by
  unfold generateAnswerContext
  rw [genCtx_foldl]
  refine ⟨by simp, by simp, ?_⟩
  intro d _
  constructor <;> intro h <;> simp [docBody, h]

/-- Witness for C7: three 50000-character documents; each body is cut to
33333 characters plus the marker and all three names are listed. -/
theorem generateAnswer_context_witness :
    (generateAnswerContext exDocs3).2 = [exName1, exName2, exName3] ∧
    docBody (maxTotalContext / exDocs3.length) exBigContent =
      List.replicate 33333 'a' ++ truncMarker := by
  have h := generateAnswer_context_spec exDocs3 (by simp [exDocs3])
  have hlen : exDocs3.length = 3 := rfl
  have hdiv : maxTotalContext / exDocs3.length = 33333 := by
    rw [hlen]
    norm_num [maxTotalContext]
  have hlenBig : exBigContent.length = 50000 := by
    rw [exBigContent, List.length_replicate]
  constructor
  · rw [h.1]
    rfl
  · have hmem : (exName1, exBigContent) ∈ exDocs3 := by simp [exDocs3]
    have hlt : maxTotalContext / exDocs3.length < exBigContent.length := by
      rw [hdiv, hlenBig]
      norm_num
    have hb := (h.2.2 (exName1, exBigContent) hmem).1 hlt
    rw [hb, hdiv, exBigContent, List.take_replicate]
    norm_num

theorem hitOf_pos (qws : List Str) (p : Str × Str) (r : SearchResult)
    (h : hitOf qws p = some r) : 0 < r.score := by
  rw [hitOf] at h
  split at h
  · split at h
    · next hpos => exact Option.some.inj h ▸ hpos
    · exact absurd h (by simp)
  · exact absurd h (by simp)

theorem searchHits_pos (s : Store) (uid : Nat) (q : Str) :
    ∀ r ∈ searchHits s uid q, 0 < r.score := by
  intro r hr
  unfold searchHits at hr
  rw [List.mem_flatMap] at hr
  obtain ⟨d, _, hr⟩ := hr
  rw [List.mem_filterMap] at hr
  obtain ⟨ch, _, hch⟩ := hr
  exact hitOf_pos _ _ _ hch

theorem filter_orderedInsert (n : Nat) (x : SearchResult) :
    ∀ l : List SearchResult,
      (List.orderedInsert resCmp x l).filter (fun r => r.score == n) =
        (x :: l).filter (fun r => r.score == n) := by
  intro l
  induction l with
  | nil => rfl
  | cons b t ih =>
    by_cases hc : resCmp x b
    · simp only [List.orderedInsert]
      rw [if_pos hc]
    · simp only [List.orderedInsert]
      rw [if_neg hc]
      have hlt : x.score < b.score := by
        simp only [resCmp] at hc
        omega
      by_cases hb : b.score = n
      · have hx : ¬x.score = n := by omega
        simp [List.filter_cons, hb, hx, ih]
      · simp only [List.filter_cons]
        by_cases hx : x.score = n
        · simp [hb, hx, ih, List.filter_cons]
        · simp [hb, hx, ih, List.filter_cons]

theorem filter_insertionSort (n : Nat) :
    ∀ l : List SearchResult,
      (List.insertionSort resCmp l).filter (fun r => r.score == n) =
        l.filter (fun r => r.score == n) := by
  intro l
  induction l with
  | nil => rfl
  | cons a t ih =>
    simp only [List.insertionSort]
    rw [filter_orderedInsert n a (List.insertionSort resCmp t)]
    simp only [List.filter_cons, ih]

theorem wordScores_score_of_atoms (text : Str) :
    ∀ (ws : List Str) (acc : Nat),
      (∀ w ∈ ws, (parsePat w).isAtoms = true) →
      ∃ n, wordScores text ws acc = ScoreOut.score n := by
  intro ws
  induction ws with
  | nil => intro acc _; exact ⟨acc, rfl⟩
  | cons w rest ih =>
    intro acc h
    have hw : (parsePat w).isAtoms = true := h w (List.mem_cons_self w rest)
    have hrest : ∀ v ∈ rest, (parsePat v).isAtoms = true :=
      fun v hv => h v (List.mem_cons_of_mem w hv)
    rw [wordScores]
    cases hp : parsePat w with
    | atoms l => exact ih (acc + atomsCount l text) hrest
    | invalid => rw [hp] at hw; exact absurd hw (by simp [PatParse.isAtoms])
    | unmodeled => rw [hp] at hw; exact absurd hw (by simp [PatParse.isAtoms])

theorem calculateRelevance_score_of_atoms (text : Str) (qws : List Str)
    (h : ∀ w ∈ qws, (parsePat w).isAtoms = true) :
    ∃ n, calculateRelevance text qws = ScoreOut.score n := by
  obtain ⟨m, hm⟩ := wordScores_score_of_atoms text qws 0 h
  rw [calculateRelevance, hm]
  exact ⟨_, rfl⟩

theorem scoreChunks_results (qws : List Str)
    (h : ∀ w ∈ qws, (parsePat w).isAtoms = true) :
    ∀ L : List (Str × Str),
      scoreChunks qws L = SearchOut.results (L.filterMap (hitOf qws)) := by
  intro L
  induction L with
  | nil => rfl
  | cons p rest ih =>
    obtain ⟨n, hn⟩ := calculateRelevance_score_of_atoms (toLowerStr p.2) qws h
    have hhit : hitOf qws p =
        if 0 < n then some (⟨p.1, p.2, n⟩ : SearchResult) else none := by
      unfold hitOf
      rw [hn]
    have hL : scoreChunks qws (p :: rest) =
        SearchOut.results
          (if 0 < n then
            (⟨p.1, p.2, n⟩ : SearchResult) :: List.filterMap (hitOf qws) rest
          else List.filterMap (hitOf qws) rest) := by
      rw [scoreChunks, hn, ih]
    rw [hL, List.filterMap_cons, hhit]
    by_cases hpos : 0 < n
    · rw [if_pos hpos, if_pos hpos]
    · rw [if_neg hpos, if_neg hpos]

theorem filterMap_flatMap {α β γ : Type} (f : α → List β) (g : β → Option γ) :
    ∀ l : List α,
      (l.flatMap f).filterMap g = l.flatMap fun a => (f a).filterMap g := by
  intro l
  induction l with
  | nil => rfl
  | cons a t ih =>
    rw [List.flatMap_cons, List.flatMap_cons, List.filterMap_append, ih]

theorem searchDocuments_results (s : Store) (uid : Nat) (q : Str)
    (hdocs : getDocuments s uid ≠ [])
    (hpat : ∀ w ∈ queryWordsOf q, (parsePat w).isAtoms = true) :
    searchDocuments s uid q =
      SearchOut.results
        ((List.insertionSort resCmp (searchHits s uid q)).take 10) := by
  have hlist : List.filterMap (hitOf (queryWordsOf q))
      (((s uid).getD []).flatMap fun d =>
        d.chunks.map fun ch => (d.fileName, ch)) = searchHits s uid q := by
    rw [filterMap_flatMap]
    unfold searchHits
    exact congrArg _
      (funext fun d => by rw [List.filterMap_map]; exact rfl)
  unfold searchDocuments
  rw [if_neg (by simpa [getDocuments] using hdocs),
    scoreChunks_results (queryWordsOf q) hpat, hlist]

/-- Claim C1 (amended): for a user with at least one document and a query
yielding at least one scoring word, provided every scoring word lies in
the literal-and-wildcard regex subset (in particular compiles without a
`SyntaxError`), `searchDocuments` returns a result list of at most ten
entries, each with score strictly greater than zero, sorted descending by
score, and that list is the 10-prefix of a stable descending sort of the
hits in encounter order (documents in collection order, chunks in
document order): for every score value, the results carrying that score
appear exactly in encounter order.  Without that proviso no list is
returned: a query word that is invalid regex syntax makes
`new RegExp(word, 'gi')` throw and the exception escapes the method (see
`search_counterexample`). -/
theorem searchDocuments_spec (s : Store) (uid : Nat) (q : Str)
    (hdocs : getDocuments s uid ≠ []) (hq : queryWordsOf q ≠ [])
    (hpat : ∀ w ∈ queryWordsOf q, (parsePat w).isAtoms = true) :
    ∃ res, searchDocuments s uid q = SearchOut.results res ∧
      res.length ≤ 10 ∧
      (∀ r ∈ res, 0 < r.score) ∧
      List.Sorted resCmp res ∧
      ∃ L, res = L.take 10 ∧
        L.Perm (searchHits s uid q) ∧ List.Sorted resCmp L ∧
        ∀ n : Nat, L.filter (fun r => r.score == n) =
          (searchHits s uid q).filter (fun r => r.score == n) := by
  refine ⟨(List.insertionSort resCmp (searchHits s uid q)).take 10,
    searchDocuments_results s uid q hdocs hpat, ?_, ?_, ?_,
    ⟨List.insertionSort resCmp (searchHits s uid q), rfl,
      List.perm_insertionSort resCmp _, List.sorted_insertionSort resCmp _,
      fun n => filter_insertionSort n _⟩⟩
  · rw [List.length_take]
    exact min_le_left _ _
  · intro r hr
    have hr' := List.take_subset 10 _ hr
    have hmem := (List.perm_insertionSort resCmp
      (searchHits s uid q)).mem_iff.mp hr'
    exact searchHits_pos s uid q r hmem
  · exact List.Pairwise.sublist (List.take_sublist 10 _)
      (List.sorted_insertionSort resCmp _)

/-- Witness for C1 at the spec's `[5, 5, 2, 0, 8]` scoring example: the
`8`-chunk comes first, the two `5`-chunks keep their relative order, the
`0`-chunk is excluded. -/
theorem searchDocuments_spec_witness :
    searchDocuments exSearchStore 0 exQuery =
      SearchOut.results
        [⟨("doc1").toList, exChunk5, 8⟩, ⟨("doc1").toList, exChunk1, 5⟩,
          ⟨("doc1").toList, exChunk2, 5⟩, ⟨("doc1").toList, exChunk3, 2⟩] ∧
    ∃ res, searchDocuments exSearchStore 0 exQuery =
        SearchOut.results res ∧
      res.length ≤ 10 ∧ (∀ r ∈ res, 0 < r.score) := by
  refine ⟨by decide, ?_⟩
  obtain ⟨res, h1, h2, h3, _⟩ := searchDocuments_spec exSearchStore 0 exQuery
    (by decide) (by decide) (by decide)
  exact ⟨res, h1, h2, h3⟩

/-- Counterexample for C1 as frozen: the query `(((` yields the scoring
word `(((`, which is invalid regex syntax, so on a user with a document
the scoring loop throws a `SyntaxError` instead of returning any result
list. -/
theorem search_counterexample :
    getDocuments exSearchStore 0 ≠ [] ∧
    queryWordsOf exBadQuery = [exBadQuery] ∧
    searchDocuments exSearchStore 0 exBadQuery = SearchOut.thrown := by
  decide

theorem sufInf {x y : Str} (h : List.IsSuffix x y) : x <:+: y := by
  exact List.IsSuffix.isInfix h

theorem preInf {x y : Str} (h : x <+: y) : x <:+: y := by
  exact List.IsPrefix.isInfix h

theorem infTrans {x y z : Str} (h1 : x <:+: y) (h2 : y <:+: z) : x <:+: z := by
  exact List.IsInfix.trans h1 h2

theorem infLen {x y : Str} (h : x <:+: y) : x.length ≤ y.length := by
  exact List.Sublist.length_le (List.IsInfix.sublist h)

theorem infRev {x y : Str} (h : x <:+: y) : x.reverse <:+: y.reverse := by
  exact List.reverse_infix.mpr h

theorem dropWhile_head_not {p : Char → Bool} :
    ∀ {l : Str} {c : Char}, (l.dropWhile p).head? = some c → p c = false := by
  intro l
  induction l with
  | nil => intro c h; simp at h
  | cons a t ih =>
    intro c h
    rw [List.dropWhile_cons] at h
    by_cases hp : p a
    · rw [if_pos hp] at h
      exact ih h
    · rw [if_neg hp] at h
      simp only [List.head?_cons, Option.some.injEq] at h
      rw [← h]
      simpa using hp

theorem lastQ_append {α : Type} {x y : List α} (h : y ≠ []) :
    (x ++ y).getLast? = y.getLast? := by
  cases hy : y.getLast? with
  | none => exact absurd (List.getLast?_eq_none_iff.mp hy) h
  | some c => rw [List.getLast?_append, hy]; rfl

theorem rtrim_pre (s : Str) : rtrim s <+: s := by
  refine ⟨(s.reverse.takeWhile isWs).reverse, ?_⟩
  unfold rtrim
  rw [← List.reverse_append, List.takeWhile_append_dropWhile,
    List.reverse_reverse]

theorem ltrim_suffix (s : Str) : List.IsSuffix (ltrim s) s :=
  ⟨s.takeWhile isWs, List.takeWhile_append_dropWhile isWs s⟩

theorem trim_infix_self (s : Str) : trim s <:+: s :=
  infTrans (sufInf (ltrim_suffix (rtrim s))) (preInf (rtrim_pre s))

theorem inf_ltrim {x y : Str} (h : x <:+: y)
    (hx : ∀ c, x.head? = some c → isWs c = false) : x <:+: ltrim y := by
  obtain ⟨p, q, hy⟩ := h
  have heq : p ++ (x ++ q) = y.takeWhile isWs ++ y.dropWhile isWs := by
    rw [List.takeWhile_append_dropWhile, ← hy, List.append_assoc]
  rcases List.append_eq_append_iff.mp heq with ⟨a', ha1, ha2⟩ | ⟨c', _, hc2⟩
  · cases a' with
    | nil =>
      simp only [List.nil_append] at ha2
      exact preInf ⟨q, ha2⟩
    | cons d ds =>
      cases x with
      | nil => exact List.nil_infix
      | cons xh xt =>
        simp only [List.cons_append] at ha2
        have hxd : xh = d := by
          have := congrArg List.head? ha2
          simpa using this
        have hdw : isWs d = true := by
          refine List.mem_takeWhile_imp (l := y) (p := isWs) ?_
          rw [ha1]
          simp
        have hxw := hx xh rfl
        rw [hxd, hdw] at hxw
        cases hxw
  · refine ⟨c', q, ?_⟩
    rw [List.append_assoc]
    exact hc2.symm

theorem inf_rtrim {x y : Str} (h : x <:+: y)
    (hx : ∀ c, x.getLast? = some c → isWs c = false) : x <:+: rtrim y := by
  have h1 : x.reverse <:+: y.reverse := infRev h
  have h2 : x.reverse <:+: ltrim y.reverse := by
    refine inf_ltrim h1 fun c hc => ?_
    rw [List.head?_reverse] at hc
    exact hx c hc
  have h3 := infRev h2
  rw [List.reverse_reverse] at h3
  exact h3

theorem ltrim_head_not {s : Str} {c : Char} (h : (ltrim s).head? = some c) :
    isWs c = false :=
  dropWhile_head_not h

theorem rtrim_last_not {s : Str} {c : Char} (h : (rtrim s).getLast? = some c) :
    isWs c = false := by
  unfold rtrim at h
  rw [List.getLast?_reverse] at h
  exact dropWhile_head_not h

theorem trim_last_not {s : Str} {c : Char} (h : (trim s).getLast? = some c) :
    isWs c = false := by
  unfold trim at h
  have hne : ltrim (rtrim s) ≠ [] := by
    intro he
    rw [he] at h
    simp at h
  obtain ⟨t, ht⟩ := ltrim_suffix (rtrim s)
  have : (rtrim s).getLast? = some c := by
    rw [← ht, lastQ_append hne]
    exact h
  exact rtrim_last_not this

theorem trim_infix_trim {x y : Str} (h : x <:+: y) : trim x <:+: trim y := by
  by_cases he : trim x = []
  · rw [he]
    exact List.nil_infix
  · have h1 : trim x <:+: y := infTrans (trim_infix_self x) h
    have h2 : trim x <:+: rtrim y :=
      inf_rtrim h1 fun c hc => trim_last_not hc
    exact inf_ltrim h2 fun c hc => ltrim_head_not hc

theorem firstBuf_mem (r : List Str × Str) : firstBuf r ∈ r.1 ++ [r.2] := by
  rcases r with ⟨bs, f⟩
  cases bs <;> simp [firstBuf]

theorem sentGo_inf :
    ∀ (t : Str) (sk : Bool) (acc : Str), ∀ s ∈ sentGo sk acc t,
      s <:+: (acc.reverse ++ t) := by
  intro t
  induction t with
  | nil =>
    intro sk acc s hs
    cases sk with
    | true =>
      simp [sentGo] at hs
      subst hs
      exact List.nil_infix
    | false =>
      simp [sentGo] at hs
      subst hs
      exact ⟨[], [], by simp⟩
  | cons c cs ih =>
    intro sk acc s hs
    cases sk with
    | true =>
      have hred : sentGo true acc (c :: cs) =
          if isWs c then sentGo true [] cs else sentGo false [c] cs := rfl
      rw [hred] at hs
      by_cases hw : isWs c
      · rw [if_pos hw] at hs
        have h1 := ih true [] s hs
        rw [List.reverse_nil, List.nil_append] at h1
        refine infTrans h1 (sufInf ⟨acc.reverse ++ [c], by simp⟩)
      · rw [if_neg hw] at hs
        have h1 := ih false [c] s hs
        have h2 : ([c] : Str).reverse ++ cs = c :: cs := by simp
        rw [h2] at h1
        refine infTrans h1 (sufInf ⟨acc.reverse, rfl⟩)
    | false =>
      have hred : sentGo false acc (c :: cs) =
          if isPunct c ∧ headIsWs cs then
            (c :: acc).reverse :: sentGo true [] cs
          else sentGo false (c :: acc) cs := rfl
      rw [hred] at hs
      by_cases hp : isPunct c ∧ headIsWs cs
      · rw [if_pos hp] at hs
        rcases List.mem_cons.mp hs with rfl | hmem
        · refine preInf ⟨cs, ?_⟩
          simp
        · have h1 := ih true [] s hmem
          rw [List.reverse_nil, List.nil_append] at h1
          refine infTrans h1 (sufInf ⟨acc.reverse ++ [c], by simp⟩)
      · rw [if_neg hp] at hs
        have h1 := ih false (c :: acc) s hs
        simpa using h1

theorem chunkLoop_cur_pre (cz k : Nat) :
    ∀ (rest : List Str) (cur : Str), cur ≠ [] →
      cur <+: firstBuf (chunkLoop cz k cur rest) := by
  intro rest
  induction rest with
  | nil =>
    intro cur _
    exact List.prefix_refl _
  | cons s t ih =>
    intro cur hcur
    show cur <+: firstBuf (chunkLoop cz k cur (s :: t))
    rw [chunkLoop]
    by_cases hc : cz < (cur ++ s).length ∧ cur ≠ []
    · rw [if_pos hc]
      simp [firstBuf]
    · rw [if_neg hc, if_neg hcur]
      exact List.IsPrefix.trans ⟨' ' :: s, rfl⟩ (ih _ (by simp))

theorem chunkLoop_sent_cover (cz k : Nat) :
    ∀ (rest : List Str) (cur : Str) (s : Str), s ∈ rest →
      ∃ b, b ∈ (chunkLoop cz k cur rest).1 ++ [(chunkLoop cz k cur rest).2] ∧
        s <:+: b := by
  intro rest
  induction rest with
  | nil =>
    intro cur s hs
    simp at hs
  | cons s0 t ih =>
    intro cur s hs
    rw [chunkLoop]
    by_cases hc : cz < (cur ++ s0).length ∧ cur ≠ []
    · rw [if_pos hc]
      dsimp only
      rcases List.mem_cons.mp hs with rfl | hmem
      · refine ⟨firstBuf (chunkLoop cz k (joinSp (owOf k cur) ++ ' ' :: s) t),
          ?_, ?_⟩
        · have hm := firstBuf_mem (chunkLoop cz k (joinSp (owOf k cur) ++ ' ' :: s) t)
          rw [List.mem_append] at hm
          rcases hm with hm | hm
          · exact List.mem_append_left _ (List.mem_cons_of_mem _ hm)
          · exact List.mem_append_right _ hm
        · have hsuf : s <:+: joinSp (owOf k cur) ++ ' ' :: s :=
            sufInf ⟨joinSp (owOf k cur) ++ [' '], by simp⟩
          have hpre := chunkLoop_cur_pre cz k t
            (joinSp (owOf k cur) ++ ' ' :: s) (by simp)
          exact infTrans hsuf (preInf hpre)
      · obtain ⟨b, hb, hbs⟩ := ih (joinSp (owOf k cur) ++ ' ' :: s0) s hmem
        refine ⟨b, ?_, hbs⟩
        rw [List.mem_append] at hb
        rcases hb with hb | hb
        · exact List.mem_append_left _ (List.mem_cons_of_mem _ hb)
        · exact List.mem_append_right _ hb
    · rw [if_neg hc]
      rcases List.mem_cons.mp hs with rfl | hmem
      · by_cases hcur : cur = []
        · rw [if_pos hcur]
          refine ⟨firstBuf (chunkLoop cz k s t), ?_, ?_⟩
          · exact firstBuf_mem _
          · by_cases hsnil : s = []
            · rw [hsnil]
              exact List.nil_infix
            · exact preInf (chunkLoop_cur_pre cz k t s hsnil)
        · rw [if_neg hcur]
          refine ⟨firstBuf (chunkLoop cz k (cur ++ ' ' :: s) t), ?_, ?_⟩
          · exact firstBuf_mem _
          · have hsuf : s <:+: cur ++ ' ' :: s := sufInf ⟨cur ++ [' '], by simp⟩
            have hpre := chunkLoop_cur_pre cz k t (cur ++ ' ' :: s) (by simp)
            exact infTrans hsuf (preInf hpre)
      · exact ih _ s hmem

/-- Claim C5 (amended): every sentence of the boundary split appears, after
trimming its boundary whitespace, contiguously and unsplit inside some
chunk of the output; in particular a sentence longer than `maxSize` is
never split (some chunk contains its trimmed form whole, so that chunk is
at least as long). -/
theorem chunk_sentence_coverage (text : Str) (cz ov : Nat) :
    ∀ s ∈ sentSplit text, ∃ c ∈ chunkText text cz ov,
      trim s <:+: c ∧ (trim s).length ≤ c.length := by
  intro s hs
  unfold chunkText
  dsimp only
  by_cases hempty :
      (chunkLoop cz (ov / 10) [] (sentSplit text)).1.map trim ++
        (if trim (chunkLoop cz (ov / 10) [] (sentSplit text)).2 = [] then []
          else [trim (chunkLoop cz (ov / 10) [] (sentSplit text)).2]) = []
  · rw [if_pos hempty]
    have h1 : s <:+: text := by
      have := sentGo_inf text false [] s hs
      simpa using this
    have hinf : trim s <:+: text := infTrans (trim_infix_self s) h1
    exact ⟨text, by simp, hinf, infLen hinf⟩
  · rw [if_neg hempty]
    obtain ⟨b, hbmem, hbinf⟩ :=
      chunkLoop_sent_cover cz (ov / 10) (sentSplit text) [] s hs
    rw [List.mem_append] at hbmem
    rcases hbmem with hb1 | hb2
    · have hinf := trim_infix_trim hbinf
      refine ⟨trim b, ?_, hinf, infLen hinf⟩
      exact List.mem_append_left _ (List.mem_map_of_mem trim hb1)
    · have hb : b = (chunkLoop cz (ov / 10) [] (sentSplit text)).2 := by
        simpa using hb2
      rw [hb] at hbinf
      have hinf := trim_infix_trim hbinf
      by_cases hfin : trim (chunkLoop cz (ov / 10) [] (sentSplit text)).2 = []
      · rw [hfin] at hinf
        have hnil : trim s = [] := by
          simpa using hinf
        obtain ⟨c, hc⟩ := List.exists_mem_of_ne_nil _ hempty
        exact ⟨c, hc, by rw [hnil]; exact List.nil_infix, by rw [hnil]; simp⟩
      · refine ⟨trim (chunkLoop cz (ov / 10) [] (sentSplit text)).2, ?_,
          hinf, infLen hinf⟩
        refine List.mem_append_right _ ?_
        rw [if_neg hfin]
        exact List.mem_singleton_self _

/-- Witness for C5 at the text `" a"`: the trimmed sentence `"a"` appears
inside the single chunk `"a"`. -/
theorem chunk_sentence_coverage_witness :
    ∃ c ∈ chunkText exTrimText 3000 500,
      trim exTrimText <:+: c ∧ (trim exTrimText).length ≤ c.length :=
  chunk_sentence_coverage exTrimText 3000 500 exTrimText (by decide)

/-- Counterexample to C5 as stated: for the text `" a"` the sentence split
yields the single sentence `" a"`, the chunker output is the single trimmed
chunk `"a"`, and the sentence does not appear contiguously inside any chunk
of the output. -/
theorem chunk_sentence_counterexample :
    sentSplit exTrimText = [exTrimText] ∧
    chunkText exTrimText 3000 500 = [("a").toList] ∧
    ¬exTrimText <:+: ("a").toList := by
  refine ⟨by decide, by decide, by decide⟩

theorem lastQ_cons {α : Type} {a : α} {l : List α} (h : l ≠ []) :
    (a :: l).getLast? = l.getLast? := by
  cases l with
  | nil => exact absurd rfl h
  | cons b t => rfl

theorem punct_cases {c : Char} (h : isPunct c = true) :
    c = '.' ∨ c = '!' ∨ c = '?' := by
  simp only [isPunct, Bool.or_eq_true, decide_eq_true_eq] at h
  tauto

theorem punct_not_ws {c : Char} (h : isPunct c = true) : isWs c = false := by
  rcases punct_cases h with rfl | rfl | rfl <;> rfl

theorem punct_not_space {c : Char} (h : isPunct c = true) : c ≠ ' ' := by
  rcases punct_cases h with rfl | rfl | rfl <;> decide

theorem dropWhile_head_keep {p : Char → Bool} {l : Str} {c : Char}
    (h : l.head? = some c) (hc : p c = false) : l.dropWhile p = l := by
  cases l with
  | nil => simp at h
  | cons a t =>
    simp only [List.head?_cons, Option.some.injEq] at h
    subst h
    rw [List.dropWhile_cons, hc]
    simp

theorem rtrim_append {x t : Str} {c : Char} (h : x.getLast? = some c)
    (hc : isWs c = false) : rtrim (x ++ t) = x ++ rtrim t := by
  unfold rtrim
  rw [List.reverse_append, List.dropWhile_append]
  by_cases he : (t.reverse.dropWhile isWs).isEmpty
  · rw [if_pos he]
    have hh : x.reverse.head? = some c := by
      rw [List.head?_reverse]
      exact h
    rw [dropWhile_head_keep hh hc, List.reverse_reverse]
    have : t.reverse.dropWhile isWs = [] := by
      rwa [List.isEmpty_iff] at he
    rw [this]
    simp
  · rw [if_neg he]
    rw [List.reverse_append, List.reverse_reverse]

theorem ltrim_append {x t : Str} (h : ∃ c ∈ x, isWs c = false) :
    ltrim (x ++ t) = ltrim x ++ t := by
  obtain ⟨c, hc, hcw⟩ := h
  induction x with
  | nil => simp at hc
  | cons a l ih =>
    unfold ltrim
    rw [List.cons_append, List.dropWhile_cons, List.dropWhile_cons]
    by_cases ha : isWs a
    · rw [if_pos ha, if_pos ha]
      rcases List.mem_cons.mp hc with rfl | hc'
      · rw [ha] at hcw
        cases hcw
      · exact ih hc'
    · rw [if_neg ha, if_neg ha]
      simp

theorem splitSp_ne_nil : ∀ s : Str, splitSp s ≠ [] := by
  intro s
  cases s with
  | nil => simp [splitSp]
  | cons c cs =>
    rw [splitSp]
    by_cases hc : c = ' '
    · rw [if_pos hc]
      simp
    · rw [if_neg hc]
      cases h : splitSp cs <;> simp

theorem splitSp_last :
    ∀ (s : Str) (c : Char), s.getLast? = some c → c ≠ ' ' →
      ∃ t, (splitSp s).getLast? = some t ∧ t.getLast? = some c := by
  intro s
  induction s with
  | nil => intro c h _; simp at h
  | cons c0 cs ih =>
    intro c h hc
    cases cs with
    | nil =>
      have hc0 : c0 = c := by simpa using h
      rw [splitSp, if_neg (by rw [hc0]; exact hc)]
      refine ⟨[c0], ?_, by rw [← hc0]; rfl⟩
      simp [splitSp]
    | cons c1 rest =>
      rw [lastQ_cons (by simp)] at h
      obtain ⟨t, ht1, ht2⟩ := ih c h hc
      rw [splitSp]
      by_cases h0 : c0 = ' '
      · rw [if_pos h0]
        rw [lastQ_cons (splitSp_ne_nil (c1 :: rest))]
        exact ⟨t, ht1, ht2⟩
      · rw [if_neg h0]
        cases hsp : splitSp (c1 :: rest) with
        | nil => exact absurd hsp (splitSp_ne_nil _)
        | cons t0 ts =>
          rw [hsp] at ht1
          cases ts with
          | nil =>
            have ht0 : t0 = t := by simpa using ht1
            have htne : t ≠ [] := by
              intro he
              rw [he] at ht2
              simp at ht2
            refine ⟨c0 :: t, by simp [ht0], ?_⟩
            rw [lastQ_cons htne]
            exact ht2
          | cons t1 ts' =>
            refine ⟨t, ?_, ht2⟩
            rw [lastQ_cons (by simp)]
            rw [lastQ_cons (by simp)] at ht1
            exact ht1

theorem joinSp_last :
    ∀ (l : List Str) (t : Str), l.getLast? = some t → t ≠ [] →
      (joinSp l).getLast? = t.getLast? := by
  intro l
  induction l with
  | nil => intro t h _; simp at h
  | cons x l' ih =>
    intro t h htne
    cases l' with
    | nil =>
      have hx : x = t := by simpa using h
      show x.getLast? = t.getLast?
      rw [hx]
    | cons y r =>
      rw [lastQ_cons (by simp)] at h
      have hjoin : joinSp (x :: y :: r) = x ++ ' ' :: joinSp (y :: r) := rfl
      rw [hjoin]
      have hne : joinSp (y :: r) ≠ [] := by
        intro he
        have hlast := ih t h htne
        rw [he] at hlast
        simp only [List.getLast?_nil] at hlast
        exact htne (List.getLast?_eq_none_iff.mp hlast.symm)
      rw [lastQ_append (by simp), lastQ_cons hne]
      exact ih t h htne

theorem lastQ_drop {l : List Str} {m : Nat} (h : l.drop m ≠ []) :
    (l.drop m).getLast? = l.getLast? := by
  conv_rhs => rw [← List.take_append_drop m l]
  rw [lastQ_append h]

theorem owLast (k : Nat) {b : Str} (h : endsPunct b) :
    ∃ c, (joinSp (owOf k b)).getLast? = some c ∧ isPunct c = true := by
  obtain ⟨c, hcl, hcp⟩ := h
  obtain ⟨t, ht1, ht2⟩ := splitSp_last b c hcl (punct_not_space hcp)
  have htne : t ≠ [] := by
    intro he
    rw [he] at ht2
    simp at ht2
  unfold owOf
  by_cases hk : k = 0
  · rw [if_pos hk]
    rw [joinSp_last (splitSp b) t ht1 htne, ht2]
    exact ⟨c, rfl, hcp⟩
  · rw [if_neg hk]
    unfold lastK
    have hne : (splitSp b).drop ((splitSp b).length - k) ≠ [] := by
      have hlen : 0 < (splitSp b).length :=
        List.length_pos.mpr (splitSp_ne_nil b)
      rw [← List.length_pos, List.length_drop]
      omega
    have hlast : ((splitSp b).drop ((splitSp b).length - k)).getLast? =
        some t := by
      rw [lastQ_drop hne]
      exact ht1
    rw [joinSp_last _ t hlast htne, ht2]
    exact ⟨c, rfl, hcp⟩

theorem sentsOK_tail {s : Str} {t : List Str} (h : sentsOK (s :: t)) :
    sentsOK t := by
  intro i b hb hlt
  refine h (i + 1) b ?_ ?_
  · simpa using hb
  · simp only [List.length_cons]
    omega

theorem sentsOK_head {s : Str} {t : List Str} (h : sentsOK (s :: t))
    (ht : t ≠ []) : endsPunct s := by
  refine h 0 s (by simp) ?_
  simp only [List.length_cons]
  have := List.length_pos.mpr ht
  omega

theorem sentsOK_singleton (x : Str) : sentsOK [x] := by
  intro i b _ hlt
  simp at hlt

theorem sentsOK_cons {x : Str} {l : List Str} (hx : endsPunct x)
    (hl : sentsOK l) : sentsOK (x :: l) := by
  intro i b hb hlt
  cases i with
  | zero =>
    simp only [List.getElem?_cons_zero, Option.some.injEq] at hb
    subst hb
    exact hx
  | succ i' =>
    simp only [List.getElem?_cons_succ] at hb
    refine hl i' b hb ?_
    simp only [List.length_cons] at hlt
    omega

theorem endsPunct_concat {x s : Str} (hs : endsPunct s) :
    endsPunct (x ++ ' ' :: s) := by
  obtain ⟨c, hcl, hcp⟩ := hs
  have hne : s ≠ [] := by
    intro he
    rw [he] at hcl
    simp at hcl
  refine ⟨c, ?_, hcp⟩
  rw [lastQ_append (by simp), lastQ_cons hne]
  exact hcl

theorem sentGo_ok : ∀ (t : Str) (sk : Bool) (acc : Str),
    sentsOK (sentGo sk acc t) := by
  intro t
  induction t with
  | nil =>
    intro sk acc
    cases sk with
    | true => exact sentsOK_singleton _
    | false => exact sentsOK_singleton _
  | cons c cs ih =>
    intro sk acc
    cases sk with
    | true =>
      have hred : sentGo true acc (c :: cs) =
          if isWs c then sentGo true [] cs else sentGo false [c] cs := rfl
      rw [hred]
      by_cases hw : isWs c
      · rw [if_pos hw]; exact ih true []
      · rw [if_neg hw]; exact ih false [c]
    | false =>
      have hred : sentGo false acc (c :: cs) =
          if isPunct c ∧ headIsWs cs then
            (c :: acc).reverse :: sentGo true [] cs
          else sentGo false (c :: acc) cs := rfl
      rw [hred]
      by_cases hp : isPunct c ∧ headIsWs cs
      · rw [if_pos hp]
        refine sentsOK_cons ⟨c, ?_, hp.1⟩ (ih true [])
        rw [List.reverse_cons, lastQ_append (by simp)]
        rfl
      · rw [if_neg hp]
        exact ih false (c :: acc)

theorem sentSplit_ok (text : Str) : sentsOK (sentSplit text) :=
  sentGo_ok text false []

theorem firstBuf_getQ (r : List Str × Str) :
    (r.1 ++ [r.2])[0]? = some (firstBuf r) := by
  rcases r with ⟨bs, f⟩
  cases bs <;> simp [firstBuf]

theorem chunkLoop_adj (cz k : Nat) :
    ∀ (rest : List Str) (cur : Str), sentsOK rest →
      (rest ≠ [] → cur = [] ∨ endsPunct cur) →
      ∀ (j : Nat) (b : Str), (chunkLoop cz k cur rest).1[j]? = some b →
        endsPunct b ∧
        ∃ nxt, ((chunkLoop cz k cur rest).1 ++
            [(chunkLoop cz k cur rest).2])[j + 1]? = some nxt ∧
          (joinSp (owOf k b) ++ [' ']) <+: nxt := by
  intro rest
  induction rest with
  | nil =>
    intro cur _ _ j b hb
    simp [chunkLoop] at hb
  | cons s t ih =>
    intro cur hok hcur j b hb
    rw [chunkLoop] at hb ⊢
    by_cases hc : cz < (cur ++ s).length ∧ cur ≠ []
    · rw [if_pos hc] at hb ⊢
      dsimp only at hb ⊢
      cases j with
      | zero =>
        simp only [List.getElem?_cons_zero, Option.some.injEq] at hb
        subst hb
        have hep : endsPunct cur := by
          rcases hcur (by simp) with h | h
          · exact absurd h hc.2
          · exact h
        refine ⟨hep,
          firstBuf (chunkLoop cz k (joinSp (owOf k cur) ++ ' ' :: s) t),
          ?_, ?_⟩
        · rw [List.cons_append, List.getElem?_cons_succ]
          exact firstBuf_getQ _
        · have hpre1 : joinSp (owOf k cur) ++ [' '] <+:
              joinSp (owOf k cur) ++ ' ' :: s := ⟨s, by simp⟩
          have hpre2 := chunkLoop_cur_pre cz k t
            (joinSp (owOf k cur) ++ ' ' :: s) (by simp)
          exact hpre1.trans hpre2
      | succ j' =>
        simp only [List.getElem?_cons_succ] at hb
        have hok' : sentsOK t := sentsOK_tail hok
        have hcur' : t ≠ [] → joinSp (owOf k cur) ++ ' ' :: s = [] ∨
            endsPunct (joinSp (owOf k cur) ++ ' ' :: s) := fun ht =>
          Or.inr (endsPunct_concat (sentsOK_head hok ht))
        obtain ⟨hep, nxt, hnxt, hpre⟩ := ih _ hok' hcur' j' b hb
        refine ⟨hep, nxt, ?_, hpre⟩
        rw [List.cons_append, List.getElem?_cons_succ]
        exact hnxt
    · rw [if_neg hc] at hb ⊢
      have hok' : sentsOK t := sentsOK_tail hok
      have hcur' : t ≠ [] → (if cur = [] then s else cur ++ ' ' :: s) = [] ∨
          endsPunct (if cur = [] then s else cur ++ ' ' :: s) := by
        intro ht
        have hs := sentsOK_head hok ht
        by_cases hnil : cur = []
        · rw [if_pos hnil]
          exact Or.inr hs
        · rw [if_neg hnil]
          exact Or.inr (endsPunct_concat hs)
      exact ih _ hok' hcur' j b hb

/-- Claim C3 (amended): whenever the chunker produces two adjacent chunks
with the earlier one not final and `⌊overlapBudget / 10⌋ ≥ 1`, the earlier
chunk is the trim of an internal buffer, and the last
`⌊overlapBudget / 10⌋` single-space-separated tokens of that buffer,
joined by single spaces and stripped of leading whitespace, appear
verbatim at the head of the later chunk.  (Tokens are produced by
splitting on the space character alone, so consecutive spaces yield empty
tokens, and the later chunk is trimmed when emitted, which removes the
joined overlap's leading whitespace — both effects the original claim
overlooks.) -/
theorem chunk_overlap_head (text : Str) (cz ov : Nat) (hk : 1 ≤ ov / 10)
    (j : Nat) (cj cj1 : Str)
    (hj : (chunkText text cz ov)[j]? = some cj)
    (hj1 : (chunkText text cz ov)[j + 1]? = some cj1) :
    ∃ b, (closedBuffers text cz ov)[j]? = some b ∧ cj = trim b ∧
      ltrim (joinSp (owOf (ov / 10) b)) <+: cj1 := by
  unfold chunkText at hj hj1
  dsimp only at hj hj1
  by_cases hempty :
      (chunkLoop cz (ov / 10) [] (sentSplit text)).1.map trim ++
        (if trim (chunkLoop cz (ov / 10) [] (sentSplit text)).2 = [] then []
          else [trim (chunkLoop cz (ov / 10) [] (sentSplit text)).2]) = []
  · rw [if_pos hempty] at hj1
    rw [List.getElem?_eq_none (by simp)] at hj1
    cases hj1
  · rw [if_neg hempty] at hj hj1
    set r := chunkLoop cz (ov / 10) [] (sentSplit text) with hr
    have hlen1 : j + 1 <
        (r.1.map trim ++
          (if trim r.2 = [] then [] else [trim r.2])).length := by
      by_contra hge
      rw [List.getElem?_eq_none (Nat.le_of_not_lt hge)] at hj1
      cases hj1
    have hjlt : j < r.1.length := by
      rw [List.length_append, List.length_map] at hlen1
      have hite : (if trim r.2 = [] then ([] : List Str)
          else [trim r.2]).length ≤ 1 := by
        split <;> simp
      omega
    obtain ⟨b, hbget⟩ : ∃ b, r.1[j]? = some b := by
      cases hbq : r.1[j]? with
      | none =>
        rw [List.getElem?_eq_none_iff] at hbq
        omega
      | some x => exact ⟨x, rfl⟩
    have hcj : cj = trim b := by
      rw [List.getElem?_append_left
        (by rw [List.length_map]; exact hjlt)] at hj
      rw [List.getElem?_map, hbget] at hj
      simpa using hj.symm
    obtain ⟨hep, nxt, hnxt, hpre⟩ := chunkLoop_adj cz (ov / 10)
      (sentSplit text) [] (sentSplit_ok text) (fun _ => Or.inl rfl) j b hbget
    have hcj1 : cj1 = trim nxt := by
      by_cases hcase : j + 1 < r.1.length
      · rw [List.getElem?_append_left hcase] at hnxt
        rw [List.getElem?_append_left
          (by rw [List.length_map]; exact hcase)] at hj1
        rw [List.getElem?_map, hnxt] at hj1
        simpa using hj1.symm
      · have hj1len : j + 1 = r.1.length := by omega
        rw [hj1len] at hnxt hj1
        rw [List.getElem?_concat_length] at hnxt
        have hnxt2 : nxt = r.2 := by simpa using hnxt.symm
        rw [List.getElem?_append_right
          (le_of_eq (by rw [List.length_map]))] at hj1
        rw [List.length_map, Nat.sub_self] at hj1
        by_cases hfin : trim r.2 = []
        · rw [if_pos hfin] at hj1
          simp at hj1
        · rw [if_neg hfin] at hj1
          simp only [List.getElem?_cons_zero, Option.some.injEq] at hj1
          rw [← hj1, hnxt2]
    obtain ⟨c, hcl, hcp⟩ := owLast (ov / 10) hep
    obtain ⟨tail0, htail⟩ := hpre
    have hnxteq : nxt = joinSp (owOf (ov / 10) b) ++ (' ' :: tail0) := by
      rw [← htail]
      simp
    have hmem : ∃ d ∈ joinSp (owOf (ov / 10) b), isWs d = false :=
      ⟨c, List.mem_of_getLast?_eq_some hcl, punct_not_ws hcp⟩
    have htrim : trim nxt =
        ltrim (joinSp (owOf (ov / 10) b)) ++ rtrim (' ' :: tail0) := by
      unfold trim
      rw [hnxteq, rtrim_append hcl (punct_not_ws hcp), ltrim_append hmem]
    refine ⟨b, ?_, hcj, ?_⟩
    · rw [closedBuffers, ← hr]
      exact hbget
    · rw [hcj1, htrim]
      exact ⟨rtrim (' ' :: tail0), rfl⟩

/-- Witness for C3 (amended) at the counterexample text: the left-trimmed
space-joined overlap tokens of the first buffer are a prefix of the second
chunk. -/
theorem chunk_overlap_head_witness :
    ∃ b, (closedBuffers exOverlapText 10 30)[0]? = some b ∧
      ("a  b. cc.").toList = trim b ∧
      ltrim (joinSp (owOf (30 / 10) b)) <+: ("b. cc. dddddddddd.").toList :=
  chunk_overlap_head exOverlapText 10 30 (by decide) 0
    (("a  b. cc.").toList) (("b. cc. dddddddddd.").toList)
    (by decide) (by decide)

/-- Counterexample to C3 as stated: for the text `"a  b. cc. dddddddddd."`
with `maxSize = 10` and `overlapBudget = 30` (three overlap words) the
chunks are `"a  b. cc."` and `"b. cc. dddddddddd."`, and the last three
words of the earlier chunk joined by single spaces are not at the head of
the later chunk, under either reading of "word": the single-space tokens
`["", "b.", "cc."]` join to `" b. cc."`, whose leading space the trimmed
later chunk lacks, and the whitespace-run words `["a", "b.", "cc."]` join
to `"a b. cc."`, which never occurs there. -/
theorem chunk_overlap_counterexample :
    chunkText exOverlapText 10 30 =
      [("a  b. cc.").toList, ("b. cc. dddddddddd.").toList] ∧
    ¬joinSp (lastK 3 (splitSp (("a  b. cc.").toList))) <+:
      ("b. cc. dddddddddd.").toList ∧
    ¬joinSp (lastK 3 ((splitWs (("a  b. cc.").toList)).filter
        (fun w => !w.isEmpty))) <+:
      ("b. cc. dddddddddd.").toList := by
  refine ⟨by decide, by decide, by decide⟩
